import Mathlib

/-!
Verification development for the binding (scope-resolution) pass of the
ares-vm front end, embedded from `src/compiler/binding/mod.rs` and the
`Ast` type of `src/compiler/parse/mod.rs`.

Modelling conventions:
* `Symbol` (an interned integer handle) is `Nat`.
* The symbol interner is reduced to the single piece of state the binding
  pass uses: the fresh-identifier counter backing `gensym`.
* Rust `HashMap` becomes an association list with replace-or-append
  insertion; lookup takes the first (hence unique) matching key.
* Rust panics (`assert!` failure, `unimplemented!`) are modelled as
  `Option.none`; user-facing errors are `Except.error`.
* `u32` counters are modelled as `Nat`.
* An `f64` literal payload is carried as its (opaque) bit pattern; the
  binding pass never inspects it.
* `LambdaBinder` stores a `parent` binder in the source but none of its
  trait methods (`add_declaration`, `already_binds`, `lookup`) ever read
  it, so the reachable scope-chain state is a stack of block rename maps
  over either one lambda summary or the global sentinel binder
  (`BuckStopsHereBinder`); `Binder` below captures exactly that state,
  and mutation through `&mut` chains becomes explicit state passing.
-/

namespace AresBinding

abbrev Symbol := Nat

/-- Source position, a pair of coordinates as in `tokens::Position`. -/
structure Position where
  line : Nat
  col : Nat
deriving DecidableEq

/-- Source span from `compiler::parse::Span`: a start and an end position. -/
structure Span where
  start : Position
  stop : Position
deriving DecidableEq

/-- Syntax tree, from `compiler::parse::Ast`. -/
inductive Ast where
  | boolLit (b : Bool) (span : Span)
  | stringLit (s : String) (span : Span)
  | intLit (i : Int) (span : Span)
  | floatLit (bits : Nat) (span : Span)
  | listLit (elems : List Ast) (span : Span)
  | mapLit (elems : List (Ast × Ast)) (span : Span)
  | symbol (sym : Symbol) (span : Span)
  | add (elems : List Ast) (span : Span)
  | quote (q : Ast) (span : Span)
  | list (elems : List Ast) (span : Span)
  | cond (a b c : Ast) (span : Span)
  | lambda (args : List Symbol) (body : Ast) (span : Span)
  | define (sym : Symbol) (value : Ast) (span : Span)
  | block (bodies : List Ast) (span : Span)

/-- Binding source, from `SymbolBindSource`. -/
inductive SymbolBindSource where
  | arg (n : Nat)
  | upvar (n : Nat)
  | localDefine (n : Nat)
  | global (s : Symbol)
deriving DecidableEq

/-- Binding errors, from `binding::error::BindingError`; the variant shapes
are reconstructed from their construction sites in `Bound::bind`:
`CouldNotBind(symbol, span)` and `AlreadyDefined(symbol)`. -/
inductive BindingError where
  | couldNotBind (s : Symbol) (span : Span)
  | alreadyDefined (s : Symbol)
deriving DecidableEq

/-- Association-list lookup, modelling `HashMap::get`. -/
def alistLookup {α : Type} : List (Symbol × α) → Symbol → Option α
  | [], _ => none
  | (k, v) :: rest, s => if k = s then some v else alistLookup rest s

/-- Association-list membership, modelling `HashMap::contains_key`. -/
def alistContains {α : Type} : List (Symbol × α) → Symbol → Bool
  | [], _ => false
  | (k, _) :: rest, s => k = s || alistContains rest s

/-- Association-list insertion, modelling `HashMap::insert`: replace the
binding if the key is present, otherwise append it. -/
def alistInsert {α : Type} : List (Symbol × α) → Symbol → α → List (Symbol × α)
  | [], s, v => [(s, v)]
  | (k, w) :: rest, s, v =>
      if k = s then (k, v) :: rest else (k, w) :: alistInsert rest s v

/-- Per-function binding summary, from `LambdaBindings`. -/
structure LambdaBindings where
  bindings : List (Symbol × SymbolBindSource)
  numArgs : Nat
  numUpvars : Nat
  numDeclarations : Nat
deriving DecidableEq

/-- Empty summary, from `LambdaBindings::new`. -/
def LambdaBindings.new : LambdaBindings :=
  { bindings := [], numArgs := 0, numUpvars := 0, numDeclarations := 0 }

/-- Stack-offset computation, from `LambdaBindings::compute_stack_offset`.
The `Upvar` and `Global` arms are `unimplemented!()` in the source, i.e. a
fatal panic, modelled as `none`. -/
def LambdaBindings.compute_stack_offset (lb : LambdaBindings) :
    SymbolBindSource → Option Nat
  | .arg a => some a
  | .upvar _ => none
  | .localDefine a => some (lb.numArgs + lb.numUpvars + a)
  | .global _ => none

/-- Argument-seeding loop of `LambdaBinder::new`: insert `arg → Arg(i)` for
each parameter in order. -/
def seedArgs (m : List (Symbol × SymbolBindSource)) :
    List Symbol → Nat → List (Symbol × SymbolBindSource)
  | [], _ => m
  | a :: rest, i => seedArgs (alistInsert m a (.arg i)) rest (i + 1)

/-- Summary of a freshly pushed function frame, from `LambdaBinder::new`. -/
def LambdaBinder_new (args : List Symbol) : LambdaBindings :=
  { bindings := seedArgs [] args 0
    numArgs := args.length
    numUpvars := 0
    numDeclarations := 0 }

/-- Declaration on a function frame, from
`impl Binder for LambdaBinder :: add_declaration`. The
`assert!(!self.bindings.bindings.contains_key(&symbol))` failure is the
`none` case. -/
def LambdaBinder_add_declaration (lb : LambdaBindings) (sym : Symbol) :
    Option (SymbolBindSource × LambdaBindings) :=
  if alistContains lb.bindings sym then none
  else
    let source := SymbolBindSource.localDefine lb.numDeclarations
    some (source,
      { lb with
        bindings := alistInsert lb.bindings sym source
        numDeclarations := lb.numDeclarations + 1 })

/-- The binder at the bottom of a chain: either the global sentinel
`BuckStopsHereBinder` or a function frame's `LambdaBindings` under
construction. -/
inductive Owner where
  | buckStopsHere
  | lambda (lb : LambdaBindings)
deriving DecidableEq

/-- Reachable state of a `&mut Binder` chain: the `symbol_map`s of the
stacked `BlockBinder`s (innermost first) over the terminal binder. -/
structure Binder where
  blocks : List (List (Symbol × Symbol))
  owner : Owner
deriving DecidableEq

/-- Modelled from the spec: the Symbol Table's "create fresh identifier"
operation (`SymbolIntern::gensym`, whose implementation is outside this
repository's sources). The interner state is the counter of identifiers
produced so far; a minted identifier is guaranteed distinct from every
identifier the table has already produced, i.e. from everything below the
counter. -/
def gensym (c : Nat) : Symbol × Nat := (c, c + 1)

/-- Trait method `already_binds`, dispatched over the chain:
`BlockBinder` checks its own `symbol_map` or asks its parent;
`LambdaBinder` checks only its own summary; `BuckStopsHereBinder` answers
`false`. -/
def already_binds : List (List (Symbol × Symbol)) → Owner → Symbol → Bool
  | [], .buckStopsHere, _ => false
  | [], .lambda lb, sym => alistContains lb.bindings sym
  | m :: rest, ow, sym => alistContains m sym || already_binds rest ow sym

/-- Trait method `lookup`, dispatched over the chain: a `BlockBinder`
translates through its `symbol_map` when it can, then delegates; a
`LambdaBinder` consults only its own summary; `BuckStopsHereBinder`
always answers `Global(sym)`. -/
def lookup : List (List (Symbol × Symbol)) → Owner → Symbol → Option SymbolBindSource
  | [], .buckStopsHere, sym => some (.global sym)
  | [], .lambda lb, sym => alistLookup lb.bindings sym
  | m :: rest, ow, sym =>
      match alistLookup m sym with
      | some translated => lookup rest ow translated
      | none => lookup rest ow sym

/-- Trait method `add_declaration`, dispatched over the chain: a
`BlockBinder` mints a fresh identifier, records `sym → mask` locally and
delegates `mask` to its parent; a `LambdaBinder` asserts the symbol is
unmapped and assigns the next local slot; `BuckStopsHereBinder` returns
`Global(sym)`. The result also carries the updated chain state and
interner counter. -/
def add_declaration : List (List (Symbol × Symbol)) → Owner → Symbol → Nat →
    Option (SymbolBindSource × List (List (Symbol × Symbol)) × Owner × Nat)
  | [], .buckStopsHere, sym, c => some (.global sym, [], .buckStopsHere, c)
  | [], .lambda lb, sym, c =>
      match LambdaBinder_add_declaration lb sym with
      | none => none
      | some (src, lb') => some (src, [], .lambda lb', c)
  | m :: rest, ow, sym, c =>
      let (mask, c') := gensym c
      let m' := alistInsert m sym mask
      match add_declaration rest ow mask c' with
      | none => none
      | some (src, rest', ow', c'') => some (src, m' :: rest', ow', c'')

/-- Resolved tree, from `Bound`. Each node keeps the `Ast` node it was
derived from. -/
inductive Bound where
  | literal (ast : Ast)
  | symbol (sym : Symbol) (ast : Ast) (source : SymbolBindSource)
  | listLit (elems : List Bound) (ast : Ast)
  | mapLit (elems : List (Bound × Bound)) (ast : Ast)
  | add (elems : List Bound) (ast : Ast)
  | quote (quoting : Ast) (ast : Ast)
  | list (elems : List Bound) (ast : Ast)
  | cond (a b c : Bound) (ast : Ast)
  | lambda (argSymbols : List Symbol) (body : Bound) (ast : Ast)
      (bindings : LambdaBindings)
  | block (bodies : List Bound) (ast : Ast)
  | define (sym : Symbol) (source : SymbolBindSource) (value : Bound) (ast : Ast)

/-- Result of one recursive `Bound::bind` call: `none` is a panic, an
`Except.error` is a binding error, and a success carries the bound node
together with the updated chain state and interner counter. -/
abbrev BindResult (α : Type) := Option (Except BindingError (α × Binder × Nat))

mutual

/-- Recursive resolver, from `Bound::bind`. State threading makes the
`&mut` mutation of the binder chain and interner explicit. -/
def Bound.bind : Ast → Binder → Nat → BindResult Bound
  | .boolLit b sp, bi, c => some (.ok (.literal (.boolLit b sp), bi, c))
  | .stringLit s sp, bi, c => some (.ok (.literal (.stringLit s sp), bi, c))
  | .intLit i sp, bi, c => some (.ok (.literal (.intLit i sp), bi, c))
  | .floatLit f sp, bi, c => some (.ok (.literal (.floatLit f sp), bi, c))
  | .listLit elems sp, bi, c =>
      match Bound.bindElems elems bi c with
      | none => none
      | some (.error e) => some (.error e)
      | some (.ok (bs, bi', c')) =>
          some (.ok (.listLit bs (.listLit elems sp), bi', c'))
  | .mapLit elems sp, bi, c =>
      match Bound.bindPairs elems bi c with
      | none => none
      | some (.error e) => some (.error e)
      | some (.ok (bs, bi', c')) =>
          some (.ok (.mapLit bs (.mapLit elems sp), bi', c'))
  | .symbol sym sp, bi, c =>
      match lookup bi.blocks bi.owner sym with
      | some source => some (.ok (.symbol sym (.symbol sym sp) source, bi, c))
      | none => some (.error (.couldNotBind sym sp))
  | .add elems sp, bi, c =>
      match Bound.bindElems elems bi c with
      | none => none
      | some (.error e) => some (.error e)
      | some (.ok (bs, bi', c')) =>
          some (.ok (.add bs (.add elems sp), bi', c'))
  | .quote q sp, bi, c => some (.ok (.quote q (.quote q sp), bi, c))
  | .list elems sp, bi, c =>
      match Bound.bindElems elems bi c with
      | none => none
      | some (.error e) => some (.error e)
      | some (.ok (bs, bi', c')) =>
          some (.ok (.list bs (.list elems sp), bi', c'))
  | .cond a b c3 sp, bi, c =>
      match Bound.bind a bi c with
      | none => none
      | some (.error e) => some (.error e)
      | some (.ok (ba, bi1, c1)) =>
          match Bound.bind b bi1 c1 with
          | none => none
          | some (.error e) => some (.error e)
          | some (.ok (bb, bi2, c2)) =>
              match Bound.bind c3 bi2 c2 with
              | none => none
              | some (.error e) => some (.error e)
              | some (.ok (bc, bi3, cc)) =>
                  some (.ok (.cond ba bb bc (.cond a b c3 sp), bi3, cc))
  | .lambda args body sp, bi, c =>
      match Bound.bind body ⟨[], .lambda (LambdaBinder_new args)⟩ c with
      | none => none
      | some (.error e) => some (.error e)
      | some (.ok (bb, bi', c')) =>
          match bi'.owner with
          | .lambda lb =>
              some (.ok (.lambda args bb (.lambda args body sp) lb, bi, c'))
          | .buckStopsHere => none
  | .block bodies sp, bi, c =>
      match Bound.bindElems bodies ⟨[] :: bi.blocks, bi.owner⟩ c with
      | none => none
      | some (.error e) => some (.error e)
      | some (.ok (bs, bi', c')) =>
          some (.ok (.block bs (.block bodies sp), ⟨bi'.blocks.tail, bi'.owner⟩, c'))
  | .define sym value sp, bi, c =>
      if already_binds bi.blocks bi.owner sym then
        some (.error (.alreadyDefined sym))
      else
        match add_declaration bi.blocks bi.owner sym c with
        | none => none
        | some (source, blocks', ow', c') =>
            match Bound.bind value ⟨blocks', ow'⟩ c' with
            | none => none
            | some (.error e) => some (.error e)
            | some (.ok (bv, bi', c'')) =>
                some (.ok (.define sym source bv (.define sym value sp), bi', c''))

/-- Left-to-right fail-fast traversal of child expressions, as performed by
the `collect::<Result<Vec<_>, _>>()` and `try!` loops in `Bound::bind`. -/
def Bound.bindElems : List Ast → Binder → Nat → BindResult (List Bound)
  | [], bi, c => some (.ok ([], bi, c))
  | a :: rest, bi, c =>
      match Bound.bind a bi c with
      | none => none
      | some (.error e) => some (.error e)
      | some (.ok (b, bi', c')) =>
          match Bound.bindElems rest bi' c' with
          | none => none
          | some (.error e) => some (.error e)
          | some (.ok (bs, bi'', c'')) => some (.ok (b :: bs, bi'', c''))

/-- Key-then-value fail-fast traversal of map-literal pairs in
`Bound::bind`. -/
def Bound.bindPairs : List (Ast × Ast) → Binder → Nat → BindResult (List (Bound × Bound))
  | [], bi, c => some (.ok ([], bi, c))
  | (k, v) :: rest, bi, c =>
      match Bound.bind k bi c with
      | none => none
      | some (.error e) => some (.error e)
      | some (.ok (bk, bi1, c1)) =>
          match Bound.bind v bi1 c1 with
          | none => none
          | some (.error e) => some (.error e)
          | some (.ok (bv, bi2, c2)) =>
              match Bound.bindPairs rest bi2 c2 with
              | none => none
              | some (.error e) => some (.error e)
              | some (.ok (bs, bi3, c3)) =>
                  some (.ok ((bk, bv) :: bs, bi3, c3))

end

/-- Entry point, from `Bound::bind_top`: start with a fresh chain holding
only the `BuckStopsHereBinder`. -/
def Bound.bind_top (ast : Ast) (c : Nat) : BindResult Bound :=
  Bound.bind ast ⟨[], .buckStopsHere⟩ c

/-! Analysis vocabulary: well-formedness of the interner counter with
respect to the syntax tree and the chain state. A counter `c` is the
interner invariant that every identifier handed out so far is below `c`;
a syntax tree produced by the parser only contains identifiers the
interner handed out. -/

/-- Does the terminal binder of a chain belong to a function frame? -/
def Owner.isLambda : Owner → Bool
  | .buckStopsHere => false
  | .lambda _ => true

/-- Does the terminal binder's summary map this symbol? -/
def Owner.binds : Owner → Symbol → Bool
  | .buckStopsHere, _ => false
  | .lambda lb, sym => alistContains lb.bindings sym

/-- All keys and values of a block rename map lie below the counter. -/
def mapUB (c : Nat) (m : List (Symbol × Symbol)) : Prop :=
  ∀ p ∈ m, p.1 < c ∧ p.2 < c

/-- All keys of the terminal binder's summary lie below the counter. -/
def Owner.keysUB : Owner → Nat → Prop
  | .buckStopsHere, _ => True
  | .lambda lb, c => ∀ p ∈ lb.bindings, p.1 < c

/-- Every symbol stored in the chain state lies below the counter. -/
def Binder.wfBelow (bi : Binder) (c : Nat) : Prop :=
  (∀ m ∈ bi.blocks, mapUB c m) ∧ bi.owner.keysUB c

mutual

/-- Every symbol occurring in the syntax tree lies below the counter,
i.e. the tree only mentions identifiers the interner has produced. -/
def Ast.wfBelow : Ast → Nat → Bool
  | .boolLit _ _, _ => true
  | .stringLit _ _, _ => true
  | .intLit _ _, _ => true
  | .floatLit _ _, _ => true
  | .listLit es _, c => Ast.wfBelowAll es c
  | .mapLit ps _, c => Ast.wfBelowPairs ps c
  | .symbol s _, c => decide (s < c)
  | .add es _, c => Ast.wfBelowAll es c
  | .quote q _, c => Ast.wfBelow q c
  | .list es _, c => Ast.wfBelowAll es c
  | .cond a b d _, c => Ast.wfBelow a c && Ast.wfBelow b c && Ast.wfBelow d c
  | .lambda args body _, c =>
      args.all (fun a => decide (a < c)) && Ast.wfBelow body c
  | .define s v _, c => decide (s < c) && Ast.wfBelow v c
  | .block bs _, c => Ast.wfBelowAll bs c

/-- List version of `Ast.wfBelow`. -/
def Ast.wfBelowAll : List Ast → Nat → Bool
  | [], _ => true
  | a :: rest, c => Ast.wfBelow a c && Ast.wfBelowAll rest c

/-- Pair-list version of `Ast.wfBelow`. -/
def Ast.wfBelowPairs : List (Ast × Ast) → Nat → Bool
  | [], _ => true
  | (k, v) :: rest, c => Ast.wfBelow k c && Ast.wfBelow v c && Ast.wfBelowPairs rest c

end

/-! Association-list facts. -/

theorem alistLookup_insert_self {α : Type} (m : List (Symbol × α)) (k : Symbol) (v : α) :
    alistLookup (alistInsert m k v) k = some v := by
  induction m with
  | nil => simp [alistInsert, alistLookup]
  | cons p rest ih =>
      obtain ⟨k', v'⟩ := p
      by_cases h : k' = k
      · simp [alistInsert, alistLookup, h]
      · simp [alistInsert, alistLookup, h, ih]

theorem mem_alistInsert {α : Type} {m : List (Symbol × α)} {k : Symbol} {v : α}
    {p : Symbol × α} (hp : p ∈ alistInsert m k v) : p ∈ m ∨ p = (k, v) := by
  induction m with
  | nil => simp [alistInsert] at hp; simp [hp]
  | cons q rest ih =>
      obtain ⟨k', v'⟩ := q
      by_cases h : k' = k
      · simp [alistInsert, h] at hp
        rcases hp with hp | hp
        · right; simp [hp, h]
        · left; simp [hp]
      · simp [alistInsert, h] at hp
        rcases hp with hp | hp
        · left; simp [hp]
        · rcases ih hp with hm | he
          · left; simp [hm]
          · right; exact he

theorem alistContains_iff {α : Type} (m : List (Symbol × α)) (s : Symbol) :
    alistContains m s = true ↔ ∃ p ∈ m, p.1 = s := by
  induction m with
  | nil => simp [alistContains]
  | cons q rest ih =>
      obtain ⟨k', v'⟩ := q
      constructor
      · intro h
        simp [alistContains] at h
        rcases h with h | h
        · exact ⟨(k', v'), by simp, h⟩
        · rcases ih.mp h with ⟨p, hp, hps⟩
          exact ⟨p, by simp [hp], hps⟩
      · rintro ⟨p, hp, hps⟩
        simp at hp
        simp [alistContains]
        rcases hp with hp | hp
        · left; rw [← hps, hp]
        · right; exact ih.mpr ⟨p, hp, hps⟩

theorem alistContains_false_of_ub {α : Type} {m : List (Symbol × α)} {s : Symbol}
    (h : ∀ p ∈ m, p.1 ≠ s) : alistContains m s = false := by
  rcases hc : alistContains m s with _ | _
  · rfl
  · rcases (alistContains_iff m s).mp hc with ⟨p, hp, hps⟩
    exact absurd hps (h p hp)

theorem alistInsert_of_not_contains {α : Type} {m : List (Symbol × α)} {k : Symbol}
    (v : α) (h : alistContains m k = false) : alistInsert m k v = m ++ [(k, v)] := by
  induction m with
  | nil => simp [alistInsert]
  | cons q rest ih =>
      obtain ⟨k', v'⟩ := q
      simp [alistContains] at h
      simp [alistInsert, h.1, ih h.2]

/-! Chain-level facts about `already_binds` and `add_declaration`. -/

theorem already_binds_spec (bs : List (List (Symbol × Symbol))) (ow : Owner)
    (sym : Symbol) :
    already_binds bs ow sym =
      (bs.any (fun m => alistContains m sym) || ow.binds sym) := by
  induction bs with
  | nil => cases ow <;> simp [already_binds, Owner.binds]
  | cons m rest ih => simp [already_binds, ih, Bool.or_assoc]

theorem already_binds_false_of_ub {bs : List (List (Symbol × Symbol))} {ow : Owner}
    {c : Nat} {sym : Symbol} (hm : ∀ m ∈ bs, mapUB c m) (ho : ow.keysUB c)
    (hs : c ≤ sym) : already_binds bs ow sym = false := by
  induction bs with
  | nil =>
      cases ow with
      | buckStopsHere => rfl
      | lambda lb =>
          exact alistContains_false_of_ub fun p hp =>
            Nat.ne_of_lt (Nat.lt_of_lt_of_le (ho p hp) hs)
  | cons m rest ih =>
      have h1 : alistContains m sym = false :=
        alistContains_false_of_ub fun p hp =>
          Nat.ne_of_lt (Nat.lt_of_lt_of_le ((hm m (by simp)) p hp).1 hs)
      have h2 : already_binds rest ow sym = false :=
        ih fun m' hm' => hm m' (by simp [hm'])
      simp [already_binds, h1, h2]

theorem add_declaration_lookup {bs bs' : List (List (Symbol × Symbol))}
    {ow ow' : Owner} {sym : Symbol} {c c' : Nat} {src : SymbolBindSource}
    (h : add_declaration bs ow sym c = some (src, bs', ow', c')) :
    lookup bs' ow' sym = some src := by
  induction bs generalizing bs' ow ow' sym c c' src with
  | nil =>
      cases ow with
      | buckStopsHere =>
          simp [add_declaration] at h
          obtain ⟨h1, h2, h3, h4⟩ := h
          subst h1; subst h2; subst h3
          rfl
      | lambda lb =>
          simp [add_declaration, LambdaBinder_add_declaration] at h
          rcases hc : alistContains lb.bindings sym with _ | _
          · rw [hc] at h
            simp at h
            obtain ⟨h1, h2, h3, h4⟩ := h
            subst h1; subst h2; subst h3
            simp [lookup, alistLookup_insert_self]
          · rw [hc] at h; simp at h
  | cons m rest ih =>
      simp only [add_declaration, gensym] at h
      rcases hrec : add_declaration rest ow c (c + 1) with _ | ⟨src2, rest2, ow2, c2⟩
      all_goals rw [hrec] at h
      · simp at h
      · simp at h
        obtain ⟨h1, h2, h3, h4⟩ := h
        subst h1; subst h2; subst h3
        simp only [lookup, alistLookup_insert_self]
        exact ih hrec

theorem add_declaration_slot {bs bs' : List (List (Symbol × Symbol))}
    {lb : LambdaBindings} {ow' : Owner} {sym : Symbol} {c c' : Nat}
    {src : SymbolBindSource}
    (h : add_declaration bs (.lambda lb) sym c = some (src, bs', ow', c')) :
    src = .localDefine lb.numDeclarations ∧
      ∃ lb', ow' = .lambda lb' ∧
        lb'.numDeclarations = lb.numDeclarations + 1 ∧
        lb'.numArgs = lb.numArgs ∧ lb'.numUpvars = lb.numUpvars := by
  induction bs generalizing sym c bs' ow' c' src with
  | nil =>
      simp [add_declaration, LambdaBinder_add_declaration] at h
      rcases hc : alistContains lb.bindings sym with _ | _
      · rw [hc] at h
        simp at h
        obtain ⟨h1, h2, h3, h4⟩ := h
        subst h1; subst h3
        exact ⟨rfl, _, rfl, rfl, rfl, rfl⟩
      · rw [hc] at h; simp at h
  | cons m rest ih =>
      simp only [add_declaration, gensym] at h
      rcases hrec : add_declaration rest (.lambda lb) c (c + 1) with _ | ⟨src2, rest2, ow2, c2⟩
      all_goals rw [hrec] at h
      · simp at h
      · simp at h
        obtain ⟨h1, h2, h3, h4⟩ := h
        subst h1; subst h3
        exact ih hrec

theorem add_declaration_total {bs : List (List (Symbol × Symbol))} {ow : Owner}
    {c : Nat} (sym : Symbol)
    (hm : ∀ m ∈ bs, mapUB c m) (ho : ow.keysUB c) (hs : sym < c)
    (hnb : already_binds bs ow sym = false) :
    ∃ src bs' ow' c', add_declaration bs ow sym c = some (src, bs', ow', c') ∧
      c ≤ c' ∧ (∀ m ∈ bs', mapUB c' m) ∧ ow'.keysUB c' ∧
      bs'.length = bs.length ∧ ow'.isLambda = ow.isLambda := by
  induction bs generalizing sym c with
  | nil =>
      cases ow with
      | buckStopsHere =>
          exact ⟨_, _, _, _, rfl, Nat.le_refl c, by simp, trivial, rfl, rfl⟩
      | lambda lb =>
          have hc : alistContains lb.bindings sym = false := by
            simpa [already_binds] using hnb
          refine ⟨.localDefine lb.numDeclarations, [],
            .lambda { lb with
              bindings := alistInsert lb.bindings sym (.localDefine lb.numDeclarations)
              numDeclarations := lb.numDeclarations + 1 }, c,
            ?_, Nat.le_refl c, by simp, ?_, rfl, rfl⟩
          · simp [add_declaration, LambdaBinder_add_declaration, hc]
          · intro p hp
            rcases mem_alistInsert hp with hp' | hp'
            · exact ho p hp'
            · simp [hp', hs]
  | cons m rest ih =>
      have hm' : ∀ m' ∈ rest, mapUB (c + 1) m' := fun m' hmm p hp =>
        ⟨Nat.lt_succ_of_lt ((hm m' (by simp [hmm])) p hp).1,
         Nat.lt_succ_of_lt ((hm m' (by simp [hmm])) p hp).2⟩
      have ho' : ow.keysUB (c + 1) := by
        cases ow with
        | buckStopsHere => trivial
        | lambda lb => exact fun p hp => Nat.lt_succ_of_lt (ho p hp)
      have hnb' : already_binds rest ow c = false :=
        already_binds_false_of_ub (fun m' hmm => hm m' (by simp [hmm])) ho
          (Nat.le_refl c)
      obtain ⟨src, rest', ow', c', hrec, hle, hubm, hubo, hlen, hkind⟩ :=
        ih c hm' ho' (Nat.lt_succ_self c) hnb'
      refine ⟨src, alistInsert m sym c :: rest', ow', c', ?_, ?_, ?_, hubo, ?_, hkind⟩
      · simp only [add_declaration, gensym, hrec]
      · exact Nat.le_trans (Nat.le_succ c) hle
      · intro m' hmm
        rcases List.mem_cons.mp hmm with hmm | hmm
        · subst hmm
          intro p hp
          rcases mem_alistInsert hp with hp' | hp'
          · have := (hm m (by simp)) p hp'
            exact ⟨Nat.lt_of_lt_of_le this.1 (Nat.le_trans (Nat.le_succ c) hle),
                   Nat.lt_of_lt_of_le this.2 (Nat.le_trans (Nat.le_succ c) hle)⟩
          · subst hp'
            exact ⟨Nat.lt_of_lt_of_le hs (Nat.le_trans (Nat.le_succ c) hle),
                   Nat.lt_of_lt_of_le (Nat.lt_succ_self c) hle⟩
        · exact hubm m' hmm
      · simp [hlen]

/-! Monotonicity of the counter bounds. -/

theorem mapUB_mono {c c' : Nat} {m : List (Symbol × Symbol)} (h : mapUB c m)
    (hcc : c ≤ c') : mapUB c' m := fun p hp =>
  ⟨Nat.lt_of_lt_of_le (h p hp).1 hcc, Nat.lt_of_lt_of_le (h p hp).2 hcc⟩

theorem keysUB_mono {ow : Owner} {c c' : Nat} (h : ow.keysUB c) (hcc : c ≤ c') :
    ow.keysUB c' := by
  cases ow with
  | buckStopsHere => trivial
  | lambda lb => exact fun p hp => Nat.lt_of_lt_of_le (h p hp) hcc

theorem binder_wfBelow_mono {bi : Binder} {c c' : Nat} (h : bi.wfBelow c)
    (hcc : c ≤ c') : bi.wfBelow c' :=
  ⟨fun m hm => mapUB_mono (h.1 m hm) hcc, keysUB_mono h.2 hcc⟩

mutual

theorem ast_wfBelow_mono (a : Ast) {c c' : Nat} (h : Ast.wfBelow a c = true)
    (hcc : c ≤ c') : Ast.wfBelow a c' = true := by
  cases a with
  | boolLit b sp => rfl
  | stringLit s sp => rfl
  | intLit i sp => rfl
  | floatLit f sp => rfl
  | listLit es sp => exact ast_wfBelowAll_mono es h hcc
  | mapLit ps sp => exact ast_wfBelowPairs_mono ps h hcc
  | symbol s sp =>
      simp [Ast.wfBelow] at h ⊢
      exact Nat.lt_of_lt_of_le h hcc
  | add es sp => exact ast_wfBelowAll_mono es h hcc
  | quote q sp => exact ast_wfBelow_mono q h hcc
  | list es sp => exact ast_wfBelowAll_mono es h hcc
  | cond x y z sp =>
      simp [Ast.wfBelow] at h ⊢
      exact ⟨⟨ast_wfBelow_mono x h.1.1 hcc, ast_wfBelow_mono y h.1.2 hcc⟩,
             ast_wfBelow_mono z h.2 hcc⟩
  | lambda args body sp =>
      simp [Ast.wfBelow] at h ⊢
      exact ⟨fun s hs => Nat.lt_of_lt_of_le (h.1 s hs) hcc,
             ast_wfBelow_mono body h.2 hcc⟩
  | define s v sp =>
      simp [Ast.wfBelow] at h ⊢
      exact ⟨Nat.lt_of_lt_of_le h.1 hcc, ast_wfBelow_mono v h.2 hcc⟩
  | block bs sp => exact ast_wfBelowAll_mono bs h hcc

theorem ast_wfBelowAll_mono (as : List Ast) {c c' : Nat}
    (h : Ast.wfBelowAll as c = true) (hcc : c ≤ c') :
    Ast.wfBelowAll as c' = true := by
  cases as with
  | nil => rfl
  | cons a rest =>
      simp [Ast.wfBelowAll] at h ⊢
      exact ⟨ast_wfBelow_mono a h.1 hcc, ast_wfBelowAll_mono rest h.2 hcc⟩

theorem ast_wfBelowPairs_mono (ps : List (Ast × Ast)) {c c' : Nat}
    (h : Ast.wfBelowPairs ps c = true) (hcc : c ≤ c') :
    Ast.wfBelowPairs ps c' = true := by
  cases ps with
  | nil => rfl
  | cons p rest =>
      obtain ⟨k, v⟩ := p
      simp [Ast.wfBelowPairs] at h ⊢
      exact ⟨⟨ast_wfBelow_mono k h.1.1 hcc, ast_wfBelow_mono v h.1.2 hcc⟩,
             ast_wfBelowPairs_mono rest h.2 hcc⟩

end

/-! Totality of the pass under the interner invariant: binding never hits
the `assert!` in `LambdaBinder::add_declaration` (the only panic reachable
from `Bound::bind`), and it maintains the counter bound on all chain
state, the chain's block depth and the kind of its terminal binder. -/

theorem seedArgs_keys {args : List Symbol} {m : List (Symbol × SymbolBindSource)}
    {i : Nat} {p : Symbol × SymbolBindSource} (hp : p ∈ seedArgs m args i) :
    (∃ q ∈ m, q.1 = p.1) ∨ p.1 ∈ args := by
  induction args generalizing m i with
  | nil => exact Or.inl ⟨p, hp, rfl⟩
  | cons a rest ih =>
      rcases ih hp with h | h
      · rcases h with ⟨q, hq, hqp⟩
        rcases mem_alistInsert hq with hq' | hq'
        · exact Or.inl ⟨q, hq', hqp⟩
        · right
          rw [← hqp, hq']
          simp
      · right; simp [h]

/-- Postcondition of one resolver step, relative to the chain state and
counter it started from: no panic; on success the counter has not
decreased, the chain state stays bounded by the new counter, the block
depth is unchanged and the terminal binder kind is unchanged. -/
def BindPost {α : Type} (bi : Binder) (c : Nat) : BindResult α → Prop
  | none => False
  | some (.error _) => True
  | some (.ok (_, bi', c')) =>
      c ≤ c' ∧ bi'.wfBelow c' ∧ bi'.blocks.length = bi.blocks.length ∧
        bi'.owner.isLambda = bi.owner.isLambda

mutual

theorem bind_total (a : Ast) (bi : Binder) (c : Nat)
    (ha : Ast.wfBelow a c = true) (hb : bi.wfBelow c) :
    BindPost bi c (Bound.bind a bi c) := by
  cases a with
  | boolLit b sp => exact ⟨Nat.le_refl c, hb, rfl, rfl⟩
  | stringLit s sp => exact ⟨Nat.le_refl c, hb, rfl, rfl⟩
  | intLit i sp => exact ⟨Nat.le_refl c, hb, rfl, rfl⟩
  | floatLit f sp => exact ⟨Nat.le_refl c, hb, rfl, rfl⟩
  | quote q sp => exact ⟨Nat.le_refl c, hb, rfl, rfl⟩
  | symbol s sp =>
      simp only [Bound.bind]
      cases hl : lookup bi.blocks bi.owner s with
      | none => exact trivial
      | some source => exact ⟨Nat.le_refl c, hb, rfl, rfl⟩
  | listLit es sp =>
      have hes := bindElems_total es bi c ha hb
      simp only [Bound.bind]
      cases hr : Bound.bindElems es bi c with
      | none => rw [hr] at hes; exact hes.elim
      | some r =>
          cases r with
          | error e => exact trivial
          | ok t =>
              obtain ⟨bs1, bi1, c1⟩ := t
              rw [hr] at hes
              exact hes
  | mapLit ps sp =>
      have hps := bindPairs_total ps bi c ha hb
      simp only [Bound.bind]
      cases hr : Bound.bindPairs ps bi c with
      | none => rw [hr] at hps; exact hps.elim
      | some r =>
          cases r with
          | error e => exact trivial
          | ok t =>
              obtain ⟨bs1, bi1, c1⟩ := t
              rw [hr] at hps
              exact hps
  | add es sp =>
      have hes := bindElems_total es bi c ha hb
      simp only [Bound.bind]
      cases hr : Bound.bindElems es bi c with
      | none => rw [hr] at hes; exact hes.elim
      | some r =>
          cases r with
          | error e => exact trivial
          | ok t =>
              obtain ⟨bs1, bi1, c1⟩ := t
              rw [hr] at hes
              exact hes
  | list es sp =>
      have hes := bindElems_total es bi c ha hb
      simp only [Bound.bind]
      cases hr : Bound.bindElems es bi c with
      | none => rw [hr] at hes; exact hes.elim
      | some r =>
          cases r with
          | error e => exact trivial
          | ok t =>
              obtain ⟨bs1, bi1, c1⟩ := t
              rw [hr] at hes
              exact hes
  | cond x y z sp =>
      simp only [Ast.wfBelow, Bool.and_eq_true] at ha
      have hx := bind_total x bi c ha.1.1 hb
      simp only [Bound.bind]
      cases hrx : Bound.bind x bi c with
      | none => rw [hrx] at hx; exact hx.elim
      | some rx =>
          cases rx with
          | error e => exact trivial
          | ok tx =>
              obtain ⟨bx, bi1, c1⟩ := tx
              rw [hrx] at hx
              obtain ⟨hle1, hwf1, hlen1, hkind1⟩ := hx
              have hy := bind_total y bi1 c1 (ast_wfBelow_mono y ha.1.2 hle1) hwf1
              dsimp only
              cases hry : Bound.bind y bi1 c1 with
              | none => rw [hry] at hy; exact hy.elim
              | some ry =>
                  cases ry with
                  | error e => exact trivial
                  | ok ty =>
                      obtain ⟨byy, bi2, c2⟩ := ty
                      rw [hry] at hy
                      obtain ⟨hle2, hwf2, hlen2, hkind2⟩ := hy
                      have hz := bind_total z bi2 c2
                        (ast_wfBelow_mono z ha.2 (Nat.le_trans hle1 hle2)) hwf2
                      dsimp only
                      cases hrz : Bound.bind z bi2 c2 with
                      | none => rw [hrz] at hz; exact hz.elim
                      | some rz =>
                          cases rz with
                          | error e => exact trivial
                          | ok tz =>
                              obtain ⟨bz, bi3, c3⟩ := tz
                              rw [hrz] at hz
                              obtain ⟨hle3, hwf3, hlen3, hkind3⟩ := hz
                              exact ⟨Nat.le_trans hle1 (Nat.le_trans hle2 hle3),
                                hwf3, by rw [hlen3, hlen2, hlen1],
                                by rw [hkind3, hkind2, hkind1]⟩
  | lambda args body sp =>
      simp only [Ast.wfBelow, Bool.and_eq_true, List.all_eq_true,
        decide_eq_true_eq] at ha
      have hwf0 : (Binder.mk [] (.lambda (LambdaBinder_new args))).wfBelow c := by
        refine ⟨fun m hm => by simp at hm, ?_⟩
        intro p hp
        rcases seedArgs_keys hp with h | h
        · rcases h with ⟨q, hq, _⟩
          simp at hq
        · exact ha.1 p.1 h
      have hbody := bind_total body ⟨[], .lambda (LambdaBinder_new args)⟩ c ha.2 hwf0
      simp only [Bound.bind]
      cases hrb : Bound.bind body ⟨[], .lambda (LambdaBinder_new args)⟩ c with
      | none => rw [hrb] at hbody; exact hbody.elim
      | some rb =>
          cases rb with
          | error e => exact trivial
          | ok tb =>
              obtain ⟨bb, bi', c'⟩ := tb
              rw [hrb] at hbody
              obtain ⟨hle, hwf, hlen, hkind⟩ := hbody
              dsimp only
              cases how : bi'.owner with
              | buckStopsHere =>
                  rw [how] at hkind
                  simp [Owner.isLambda] at hkind
              | lambda lb =>
                  exact ⟨hle, binder_wfBelow_mono hb hle, rfl, rfl⟩
  | block bodies sp =>
      have hwf1 : (Binder.mk ([] :: bi.blocks) bi.owner).wfBelow c := by
        refine ⟨fun m hm => ?_, hb.2⟩
        rcases List.mem_cons.mp hm with hm' | hm'
        · subst hm'; intro p hp; simp at hp
        · exact hb.1 m hm'
      have hbs := bindElems_total bodies ⟨[] :: bi.blocks, bi.owner⟩ c ha hwf1
      simp only [Bound.bind]
      cases hr : Bound.bindElems bodies ⟨[] :: bi.blocks, bi.owner⟩ c with
      | none => rw [hr] at hbs; exact hbs.elim
      | some r =>
          cases r with
          | error e => exact trivial
          | ok t =>
              obtain ⟨bs1, bi1, c1⟩ := t
              rw [hr] at hbs
              obtain ⟨hle, hwf, hlen, hkind⟩ := hbs
              dsimp only
              refine ⟨hle, ⟨fun m' hm' => ?_, hwf.2⟩, ?_, hkind⟩
              · exact hwf.1 m' (List.tail_subset _ hm')
              · cases hbl : bi1.blocks with
                | nil => rw [hbl] at hlen; simp at hlen
                | cons m rest => rw [hbl] at hlen; simpa using hlen
  | define s v sp =>
      simp only [Ast.wfBelow, Bool.and_eq_true, decide_eq_true_eq] at ha
      simp only [Bound.bind]
      by_cases hab : already_binds bi.blocks bi.owner s = true
      · rw [if_pos hab]; exact trivial
      · rw [if_neg hab]
        obtain ⟨src, bs', ow', c', hadd, hle, hm', ho', hlen, hkind⟩ :=
          add_declaration_total s hb.1 hb.2 ha.1 (by simpa using hab)
        rw [hadd]
        have hv := bind_total v ⟨bs', ow'⟩ c' (ast_wfBelow_mono v ha.2 hle) ⟨hm', ho'⟩
        dsimp only
        cases hrv : Bound.bind v ⟨bs', ow'⟩ c' with
        | none => rw [hrv] at hv; exact hv.elim
        | some rv =>
            cases rv with
            | error e => exact trivial
            | ok tv =>
                obtain ⟨bv, bi'', c''⟩ := tv
                rw [hrv] at hv
                obtain ⟨hle2, hwf2, hlen2, hkind2⟩ := hv
                exact ⟨Nat.le_trans hle hle2, hwf2,
                  by rw [hlen2]; exact hlen,
                  by rw [hkind2]; exact hkind⟩

theorem bindElems_total (as : List Ast) (bi : Binder) (c : Nat)
    (ha : Ast.wfBelowAll as c = true) (hb : bi.wfBelow c) :
    BindPost bi c (Bound.bindElems as bi c) := by
  cases as with
  | nil => exact ⟨Nat.le_refl c, hb, rfl, rfl⟩
  | cons a rest =>
      simp only [Ast.wfBelowAll, Bool.and_eq_true] at ha
      have h1 := bind_total a bi c ha.1 hb
      simp only [Bound.bindElems]
      cases hr1 : Bound.bind a bi c with
      | none => rw [hr1] at h1; exact h1.elim
      | some r1 =>
          cases r1 with
          | error e => exact trivial
          | ok t1 =>
              obtain ⟨b1, bi1, c1⟩ := t1
              rw [hr1] at h1
              obtain ⟨hle1, hwf1, hlen1, hkind1⟩ := h1
              have h2 := bindElems_total rest bi1 c1
                (ast_wfBelowAll_mono rest ha.2 hle1) hwf1
              dsimp only
              cases hr2 : Bound.bindElems rest bi1 c1 with
              | none => rw [hr2] at h2; exact h2.elim
              | some r2 =>
                  cases r2 with
                  | error e => exact trivial
                  | ok t2 =>
                      obtain ⟨bs2, bi2, c2⟩ := t2
                      rw [hr2] at h2
                      obtain ⟨hle2, hwf2, hlen2, hkind2⟩ := h2
                      exact ⟨Nat.le_trans hle1 hle2, hwf2,
                        by rw [hlen2, hlen1], by rw [hkind2, hkind1]⟩

theorem bindPairs_total (ps : List (Ast × Ast)) (bi : Binder) (c : Nat)
    (ha : Ast.wfBelowPairs ps c = true) (hb : bi.wfBelow c) :
    BindPost bi c (Bound.bindPairs ps bi c) := by
  cases ps with
  | nil => exact ⟨Nat.le_refl c, hb, rfl, rfl⟩
  | cons p rest =>
      obtain ⟨k, v⟩ := p
      simp only [Ast.wfBelowPairs, Bool.and_eq_true] at ha
      have hk := bind_total k bi c ha.1.1 hb
      simp only [Bound.bindPairs]
      cases hrk : Bound.bind k bi c with
      | none => rw [hrk] at hk; exact hk.elim
      | some rk =>
          cases rk with
          | error e => exact trivial
          | ok tk =>
              obtain ⟨bk, bi1, c1⟩ := tk
              rw [hrk] at hk
              obtain ⟨hle1, hwf1, hlen1, hkind1⟩ := hk
              have hv := bind_total v bi1 c1 (ast_wfBelow_mono v ha.1.2 hle1) hwf1
              dsimp only
              cases hrv : Bound.bind v bi1 c1 with
              | none => rw [hrv] at hv; exact hv.elim
              | some rv =>
                  cases rv with
                  | error e => exact trivial
                  | ok tv =>
                      obtain ⟨bv, bi2, c2⟩ := tv
                      rw [hrv] at hv
                      obtain ⟨hle2, hwf2, hlen2, hkind2⟩ := hv
                      have h2 := bindPairs_total rest bi2 c2
                        (ast_wfBelowPairs_mono rest ha.2 (Nat.le_trans hle1 hle2)) hwf2
                      dsimp only
                      cases hr2 : Bound.bindPairs rest bi2 c2 with
                      | none => rw [hr2] at h2; exact h2.elim
                      | some r2 =>
                          cases r2 with
                          | error e => exact trivial
                          | ok t2 =>
                              obtain ⟨bs2, bi3, c3⟩ := t2
                              rw [hr2] at h2
                              obtain ⟨hle3, hwf3, hlen3, hkind3⟩ := h2
                              exact ⟨Nat.le_trans hle1 (Nat.le_trans hle2 hle3),
                                hwf3, by rw [hlen3, hlen2, hlen1],
                                by rw [hkind3, hkind2, hkind1]⟩

end

/-! Fail-fast propagation through child sequences. -/

theorem bindElems_append_error {xs : List Ast} {bi bi1 : Binder} {c c1 : Nat}
    {bs : List Bound} {bad : Ast} {e : BindingError} (ys : List Ast)
    (h1 : Bound.bindElems xs bi c = some (.ok (bs, bi1, c1)))
    (h2 : Bound.bind bad bi1 c1 = some (.error e)) :
    Bound.bindElems (xs ++ bad :: ys) bi c = some (.error e) := by
  induction xs generalizing bi c bs bi1 c1 with
  | nil =>
      simp only [Bound.bindElems] at h1
      simp only [Option.some.injEq, Except.ok.injEq, Prod.mk.injEq] at h1
      obtain ⟨_, hbi, hc⟩ := h1
      subst hbi; subst hc
      simp only [List.nil_append, Bound.bindElems, h2]
  | cons a rest ih =>
      simp only [Bound.bindElems] at h1
      simp only [List.cons_append, Bound.bindElems]
      cases hr : Bound.bind a bi c with
      | none => rw [hr] at h1; simp at h1
      | some r =>
          cases r with
          | error e2 => rw [hr] at h1; simp at h1
          | ok t =>
              obtain ⟨b1, bi', c'⟩ := t
              rw [hr] at h1
              dsimp only at h1 ⊢
              cases hr2 : Bound.bindElems rest bi' c' with
              | none => rw [hr2] at h1; simp at h1
              | some r2 =>
                  cases r2 with
                  | error e2 => rw [hr2] at h1; simp at h1
                  | ok t2 =>
                      obtain ⟨bs2, bi2, c2⟩ := t2
                      rw [hr2] at h1
                      simp only [Option.some.injEq, Except.ok.injEq,
                        Prod.mk.injEq] at h1
                      obtain ⟨_, hbi, hc⟩ := h1
                      subst hbi; subst hc
                      simp only [List.append_eq]
                      rw [ih hr2 h2]

theorem bindPairs_append_error_key {ps : List (Ast × Ast)} {bi bi1 : Binder}
    {c c1 : Nat} {bs : List (Bound × Bound)} {bad v : Ast} {e : BindingError}
    (rest : List (Ast × Ast))
    (h1 : Bound.bindPairs ps bi c = some (.ok (bs, bi1, c1)))
    (h2 : Bound.bind bad bi1 c1 = some (.error e)) :
    Bound.bindPairs (ps ++ (bad, v) :: rest) bi c = some (.error e) := by
  induction ps generalizing bi c bs bi1 c1 with
  | nil =>
      simp only [Bound.bindPairs] at h1
      simp only [Option.some.injEq, Except.ok.injEq, Prod.mk.injEq] at h1
      obtain ⟨_, hbi, hc⟩ := h1
      subst hbi; subst hc
      simp only [List.nil_append, Bound.bindPairs, h2]
  | cons p rest2 ih =>
      obtain ⟨k, w⟩ := p
      simp only [Bound.bindPairs] at h1
      simp only [List.cons_append, Bound.bindPairs]
      cases hrk : Bound.bind k bi c with
      | none => rw [hrk] at h1; simp at h1
      | some rk =>
          cases rk with
          | error e2 => rw [hrk] at h1; simp at h1
          | ok tk =>
              obtain ⟨bk, bik, ck⟩ := tk
              rw [hrk] at h1
              dsimp only at h1 ⊢
              cases hrw : Bound.bind w bik ck with
              | none => rw [hrw] at h1; simp at h1
              | some rw2 =>
                  cases rw2 with
                  | error e2 => rw [hrw] at h1; simp at h1
                  | ok tw =>
                      obtain ⟨bw, biw, cw⟩ := tw
                      rw [hrw] at h1
                      dsimp only at h1 ⊢
                      cases hr2 : Bound.bindPairs rest2 biw cw with
                      | none => rw [hr2] at h1; simp at h1
                      | some r2 =>
                          cases r2 with
                          | error e2 => rw [hr2] at h1; simp at h1
                          | ok t2 =>
                              obtain ⟨bs2, bi2, c2⟩ := t2
                              rw [hr2] at h1
                              simp only [Option.some.injEq, Except.ok.injEq,
                                Prod.mk.injEq] at h1
                              obtain ⟨_, hbi, hc⟩ := h1
                              subst hbi; subst hc
                              simp only [List.append_eq]
                              rw [ih hr2 h2]

theorem bindPairs_append_error_value {ps : List (Ast × Ast)} {bi bi1 bi2 : Binder}
    {c c1 c2 : Nat} {bs : List (Bound × Bound)} {k bad : Ast} {bk : Bound}
    {e : BindingError} (rest : List (Ast × Ast))
    (h1 : Bound.bindPairs ps bi c = some (.ok (bs, bi1, c1)))
    (hk : Bound.bind k bi1 c1 = some (.ok (bk, bi2, c2)))
    (h2 : Bound.bind bad bi2 c2 = some (.error e)) :
    Bound.bindPairs (ps ++ (k, bad) :: rest) bi c = some (.error e) := by
  induction ps generalizing bi c bs bi1 c1 with
  | nil =>
      simp only [Bound.bindPairs] at h1
      simp only [Option.some.injEq, Except.ok.injEq, Prod.mk.injEq] at h1
      obtain ⟨_, hbi, hc⟩ := h1
      subst hbi; subst hc
      simp only [List.nil_append, Bound.bindPairs, hk, h2]
  | cons p rest2 ih =>
      obtain ⟨k2, w⟩ := p
      simp only [Bound.bindPairs] at h1
      simp only [List.cons_append, Bound.bindPairs]
      cases hrk : Bound.bind k2 bi c with
      | none => rw [hrk] at h1; simp at h1
      | some rk =>
          cases rk with
          | error e2 => rw [hrk] at h1; simp at h1
          | ok tk =>
              obtain ⟨bk2, bik, ck⟩ := tk
              rw [hrk] at h1
              dsimp only at h1 ⊢
              cases hrw : Bound.bind w bik ck with
              | none => rw [hrw] at h1; simp at h1
              | some rw2 =>
                  cases rw2 with
                  | error e2 => rw [hrw] at h1; simp at h1
                  | ok tw =>
                      obtain ⟨bw, biw, cw⟩ := tw
                      rw [hrw] at h1
                      dsimp only at h1 ⊢
                      cases hr2 : Bound.bindPairs rest2 biw cw with
                      | none => rw [hr2] at h1; simp at h1
                      | some r2 =>
                          cases r2 with
                          | error e2 => rw [hr2] at h1; simp at h1
                          | ok t2 =>
                              obtain ⟨bs2, bi3, c3⟩ := t2
                              rw [hr2] at h1
                              simp only [Option.some.injEq, Except.ok.injEq,
                                Prod.mk.injEq] at h1
                              obtain ⟨_, hbi, hc⟩ := h1
                              subst hbi; subst hc
                              simp only [List.append_eq]
                              rw [ih hr2 hk]

/-! Function Binding Summary invariants. -/

/-- Argument index carried by a binding source, if any. -/
def srcArgIdx : SymbolBindSource → Option Nat
  | .arg i => some i
  | _ => none

/-- Local-declaration index carried by a binding source, if any. -/
def srcLocalIdx : SymbolBindSource → Option Nat
  | .localDefine i => some i
  | _ => none

/-- Argument indices appearing among a summary's values. -/
def argIndices (lb : LambdaBindings) : List Nat :=
  lb.bindings.filterMap (fun p => srcArgIdx p.2)

/-- Local-declaration indices appearing among a summary's values. -/
def localIndices (lb : LambdaBindings) : List Nat :=
  lb.bindings.filterMap (fun p => srcLocalIdx p.2)

/-- Summaries exactly as the binding pass produces them: seeded from a
parameter list by `LambdaBinder::new`, then extended by successful
`LambdaBinder::add_declaration` calls. -/
inductive SummaryFrom (args : List Symbol) : LambdaBindings → Prop where
  | seeded : SummaryFrom args (LambdaBinder_new args)
  | declared {lb lb' : LambdaBindings} {sym : Symbol} {src : SymbolBindSource} :
      SummaryFrom args lb →
      LambdaBinder_add_declaration lb sym = some (src, lb') →
      SummaryFrom args lb'

theorem alistContains_append {α : Type} (m1 m2 : List (Symbol × α)) (s : Symbol) :
    alistContains (m1 ++ m2) s = (alistContains m1 s || alistContains m2 s) := by
  induction m1 with
  | nil => simp [alistContains]
  | cons p rest ih =>
      obtain ⟨k, v⟩ := p
      simp [alistContains, ih, Bool.or_assoc]

theorem seedArgs_props {args : List Symbol} :
    ∀ (m : List (Symbol × SymbolBindSource)) (i : Nat),
      args.Nodup → (∀ a ∈ args, alistContains m a = false) →
      (seedArgs m args i).map Prod.fst = m.map Prod.fst ++ args ∧
      (seedArgs m args i).filterMap (fun p => srcArgIdx p.2) =
        m.filterMap (fun p => srcArgIdx p.2) ++ List.range' i args.length ∧
      (seedArgs m args i).filterMap (fun p => srcLocalIdx p.2) =
        m.filterMap (fun p => srcLocalIdx p.2) := by
  induction args with
  | nil => intro m i _ _; simp [seedArgs]
  | cons a rest ih =>
      intro m i hnd hct
      have hins : alistInsert m a (.arg i) = m ++ [(a, .arg i)] :=
        alistInsert_of_not_contains _ (hct a (by simp))
      have hnd' : rest.Nodup := (List.nodup_cons.mp hnd).2
      have hna : a ∉ rest := (List.nodup_cons.mp hnd).1
      have hct' : ∀ b ∈ rest, alistContains (alistInsert m a (.arg i)) b = false := by
        intro b hb
        rw [hins, alistContains_append]
        have h1 : alistContains m b = false := hct b (by simp [hb])
        have h2 : alistContains [(a, SymbolBindSource.arg i)] b = false := by
          have hne : a ≠ b := fun hab => hna (hab ▸ hb)
          simp [alistContains, hne]
        simp [h1, h2]
      obtain ⟨h1, h2, h3⟩ := ih (alistInsert m a (.arg i)) (i + 1) hnd' hct'
      refine ⟨?_, ?_, ?_⟩
      · rw [seedArgs, h1, hins]
        simp
      · rw [seedArgs, h2, hins]
        simp [List.range', srcArgIdx]
      · rw [seedArgs, h3, hins]
        simp [srcLocalIdx]

theorem summary_invariant {args : List Symbol} {lb : LambdaBindings}
    (h : SummaryFrom args lb) (hnd : args.Nodup) :
    (lb.bindings.map Prod.fst).Nodup ∧
    lb.numArgs = args.length ∧
    (∀ i, i ∈ argIndices lb ↔ i < lb.numArgs) ∧
    (∀ i, i ∈ localIndices lb ↔ i < lb.numDeclarations) := by
  induction h with
  | seeded =>
      obtain ⟨h1, h2, h3⟩ := seedArgs_props [] 0 hnd (by simp [alistContains])
      refine ⟨?_, rfl, ?_, ?_⟩
      · rw [show (LambdaBinder_new args).bindings = seedArgs [] args 0 from rfl, h1]
        simpa using hnd
      · intro i
        rw [show argIndices (LambdaBinder_new args) =
          (seedArgs [] args 0).filterMap (fun p => srcArgIdx p.2) from rfl, h2]
        rw [show (LambdaBinder_new args).numArgs = args.length from rfl]
        simp [List.mem_range']
      · intro i
        rw [show localIndices (LambdaBinder_new args) =
          (seedArgs [] args 0).filterMap (fun p => srcLocalIdx p.2) from rfl, h3]
        rw [show (LambdaBinder_new args).numDeclarations = 0 from rfl]
        simp
  | declared hprev hadd ih =>
      obtain ⟨ih1, ih2, ih3, ih4⟩ := ih
      rename_i lb0 lb1 sym src
      simp only [LambdaBinder_add_declaration] at hadd
      rcases hc : alistContains lb0.bindings sym with _ | _
      all_goals rw [hc] at hadd
      case true => simp at hadd
      case false =>
      simp only [Bool.false_eq_true, if_false, Option.some.injEq,
        Prod.mk.injEq] at hadd
      obtain ⟨hsrc, hlb⟩ := hadd
      subst hlb
      have hins : alistInsert lb0.bindings sym
          (.localDefine lb0.numDeclarations) =
          lb0.bindings ++ [(sym, .localDefine lb0.numDeclarations)] :=
        alistInsert_of_not_contains _ hc
      have hnotin : sym ∉ lb0.bindings.map Prod.fst := by
        intro hmem
        rcases List.mem_map.mp hmem with ⟨p, hp, hps⟩
        have hct : alistContains lb0.bindings sym = true :=
          (alistContains_iff _ _).mpr ⟨p, hp, hps⟩
        rw [hct] at hc
        exact absurd hc (by simp)
      refine ⟨?_, ih2, ?_, ?_⟩
      · simp only [hins, List.map_append, List.map]
        rw [List.nodup_append]
        exact ⟨ih1, List.nodup_singleton sym, by simpa using hnotin⟩
      · intro i
        simp only [argIndices, hins, List.filterMap_append] at ih3 ⊢
        simpa [srcArgIdx] using ih3 i
      · intro i
        simp only [localIndices, hins, List.filterMap_append] at ih4 ⊢
        simp only [List.filterMap, srcLocalIdx]
        rw [List.mem_append]
        constructor
        · rintro (hmem | hmem)
          · exact Nat.lt_succ_of_lt ((ih4 i).mp hmem)
          · simp at hmem
            simp [hmem]
        · intro hlt
          rcases Nat.lt_succ_iff_lt_or_eq.mp hlt with hlt' | heq
          · exact Or.inl ((ih4 i).mpr hlt')
          · right; simp [heq]

/-! Claim theorems. -/

/-- Span constant used in concrete test inputs. -/
def sp0 : Span := ⟨⟨0, 0⟩, ⟨0, 0⟩⟩

/-- A second, distinct span constant, to check which span an error carries. -/
def spInner : Span := ⟨⟨1, 1⟩, ⟨1, 2⟩⟩

/-- C1: binding a local declaration first checks `already_binds` on the
current frame and fails with `AlreadyDefined` when it holds; otherwise it
calls `add_declaration` to obtain the Binding Source and only then
resolves the value expression under the updated frame, in which the
declared name looks up to exactly that source, so self-referential
definitions resolve. -/
theorem C1_define_checks_then_declares_then_binds_value :
    (∀ (bi : Binder) (sym : Symbol) (v : Ast) (sp : Span) (c : Nat),
      already_binds bi.blocks bi.owner sym = true →
      Bound.bind (.define sym v sp) bi c = some (.error (.alreadyDefined sym))) ∧
    (∀ (bs bs' : List (List (Symbol × Symbol))) (ow ow' : Owner) (sym : Symbol)
      (c c' : Nat) (src : SymbolBindSource),
      add_declaration bs ow sym c = some (src, bs', ow', c') →
      lookup bs' ow' sym = some src) ∧
    (∀ (bi : Binder) (sym : Symbol) (v : Ast) (sp : Span) (c : Nat)
      (src : SymbolBindSource) (bs' : List (List (Symbol × Symbol))) (ow' : Owner)
      (c' : Nat) (bv : Bound) (bi2 : Binder) (c2 : Nat),
      already_binds bi.blocks bi.owner sym = false →
      add_declaration bi.blocks bi.owner sym c = some (src, bs', ow', c') →
      Bound.bind v ⟨bs', ow'⟩ c' = some (.ok (bv, bi2, c2)) →
      Bound.bind (.define sym v sp) bi c =
        some (.ok (.define sym src bv (.define sym v sp), bi2, c2))) := by
  refine ⟨?_, ?_, ?_⟩
  · intro bi sym v sp c h
    simp [Bound.bind, h]
  · intro _ _ _ _ _ _ _ _ h
    exact add_declaration_lookup h
  · intro bi sym v sp c src bs' ow' c' bv bi2 c2 h0 h1 h2
    simp [Bound.bind, h0, h1, h2]

/-- C1 witness: a top-level self-referential `(define x x)` succeeds, with
the initializer's reference to `x` resolving to the same `Global` source
the declaration just received. -/
theorem C1_witness :
    Bound.bind (.define 0 (.symbol 0 sp0) sp0) ⟨[], .buckStopsHere⟩ 1 =
      some (.ok (.define 0 (.global 0) (.symbol 0 (.symbol 0 sp0) (.global 0))
        (.define 0 (.symbol 0 sp0) sp0), ⟨[], .buckStopsHere⟩, 1)) :=
  C1_define_checks_then_declares_then_binds_value.2.2 ⟨[], .buckStopsHere⟩ 0
    (.symbol 0 sp0) sp0 1 (.global 0) [] .buckStopsHere 1
    (.symbol 0 (.symbol 0 sp0) (.global 0)) ⟨[], .buckStopsHere⟩ 1 rfl rfl rfl

/-- C2: resolution under a Function frame consults only that function's
own summary (the frame's `lookup` is exactly an access to its own map and
can consult nothing else), an unmapped symbol there fails with
`CouldNotBind` carrying the symbol and its span, and end to end
`(lambda (a) (lambda () a))` fails with an unresolved-symbol error for
`a` at the inner reference's span. -/
theorem C2_function_frame_never_consults_parent :
    (∀ (lb : LambdaBindings) (sym : Symbol),
      lookup [] (.lambda lb) sym = alistLookup lb.bindings sym) ∧
    (∀ (lb : LambdaBindings) (sym : Symbol) (sp : Span) (c : Nat),
      alistLookup lb.bindings sym = none →
      Bound.bind (.symbol sym sp) ⟨[], .lambda lb⟩ c =
        some (.error (.couldNotBind sym sp))) ∧
    Bound.bind_top
        (.lambda [0] (.block [.lambda [] (.block [.symbol 0 spInner] sp0) sp0] sp0) sp0) 1 =
      some (.error (.couldNotBind 0 spInner)) := by
  refine ⟨fun _ _ => rfl, ?_, rfl⟩
  intro lb sym sp c h
  simp [Bound.bind, lookup, h]

/-- C2 witness: a symbol reference under a Function frame whose summary is
empty fails with an unresolved-symbol error. -/
theorem C2_witness :
    Bound.bind (.symbol 3 spInner) ⟨[], .lambda LambdaBindings.new⟩ 4 =
      some (.error (.couldNotBind 3 spInner)) :=
  C2_function_frame_never_consults_parent.2.1 LambdaBindings.new 3 spInner 4 rfl

/-- C3: every successful declaration reaching a Function-frame owner is
assigned `LocalSlot(num_declarations)` and bumps that single per-function
counter, regardless of how many block frames delegated it; concretely,
two sibling blocks in one function declaring the same surface name get
the distinct slots 0 and 1 and the function's `local_declaration_count`
is 2. -/
theorem C3_sibling_blocks_get_distinct_slots :
    (∀ (bs bs' : List (List (Symbol × Symbol))) (lb : LambdaBindings) (ow' : Owner)
      (sym : Symbol) (c c' : Nat) (src : SymbolBindSource),
      add_declaration bs (.lambda lb) sym c = some (src, bs', ow', c') →
      src = .localDefine lb.numDeclarations ∧
        ∃ lb', ow' = .lambda lb' ∧ lb'.numDeclarations = lb.numDeclarations + 1) ∧
    Bound.bind_top (.lambda [] (.block [.block [.define 0 (.intLit 1 sp0) sp0] sp0,
        .block [.define 0 (.intLit 2 sp0) sp0] sp0] sp0) sp0) 1 =
      some (.ok (.lambda []
        (.block [
          .block [.define 0 (.localDefine 0) (.literal (.intLit 1 sp0))
            (.define 0 (.intLit 1 sp0) sp0)] (.block [.define 0 (.intLit 1 sp0) sp0] sp0),
          .block [.define 0 (.localDefine 1) (.literal (.intLit 2 sp0))
            (.define 0 (.intLit 2 sp0) sp0)] (.block [.define 0 (.intLit 2 sp0) sp0] sp0)]
          (.block [.block [.define 0 (.intLit 1 sp0) sp0] sp0,
            .block [.define 0 (.intLit 2 sp0) sp0] sp0] sp0))
        (.lambda [] (.block [.block [.define 0 (.intLit 1 sp0) sp0] sp0,
          .block [.define 0 (.intLit 2 sp0) sp0] sp0] sp0) sp0)
        ⟨[(2, .localDefine 0), (4, .localDefine 1)], 0, 0, 2⟩,
        ⟨[], .buckStopsHere⟩, 5)) ∧
    (SymbolBindSource.localDefine 0 ≠ .localDefine 1) := by
  refine ⟨?_, rfl, by decide⟩
  intro bs bs' lb ow' sym c c' src h
  obtain ⟨h1, lb', h2, h3, _, _⟩ := add_declaration_slot h
  exact ⟨h1, lb', h2, h3⟩

/-- C3 witness: a declaration delegated through one block frame to a fresh
Function frame receives slot 0 and leaves the frame with one declaration
counted. -/
theorem C3_witness :
    (SymbolBindSource.localDefine 0 = .localDefine LambdaBindings.new.numDeclarations) ∧
    add_declaration [[]] (.lambda LambdaBindings.new) 0 1 =
      some (.localDefine 0, [[(0, 1)]], .lambda ⟨[(1, .localDefine 0)], 0, 0, 1⟩, 2) :=
  ⟨(C3_sibling_blocks_get_distinct_slots.1 [[]] [[(0, 1)]] LambdaBindings.new
      (.lambda ⟨[(1, .localDefine 0)], 0, 0, 1⟩) 0 1 2 (.localDefine 0) rfl).1, rfl⟩

/-- C4: `already_binds` on a chain is true exactly when the name is in
some enclosing block frame's private map or in the terminal binder's own
summary, i.e. the check stops at the owning Function frame; declaring the
same name twice in one block fails with `AlreadyDefined`, while
re-declaring a name from an enclosing block inside a nested function
succeeds. -/
theorem C4_already_declared_stops_at_function_frame :
    (∀ (bs : List (List (Symbol × Symbol))) (ow : Owner) (sym : Symbol),
      already_binds bs ow sym =
        (bs.any (fun m => alistContains m sym) || ow.binds sym)) ∧
    Bound.bind_top (.block [.define 0 (.intLit 1 sp0) sp0,
        .define 0 (.intLit 2 sp0) sp0] sp0) 1 =
      some (.error (.alreadyDefined 0)) ∧
    Bound.bind_top (.block [.define 0 (.intLit 1 sp0) sp0,
        .lambda [] (.block [.define 0 (.intLit 2 sp0) sp0] sp0) sp0] sp0) 1 =
      some (.ok (.block
        [.define 0 (.global 1) (.literal (.intLit 1 sp0)) (.define 0 (.intLit 1 sp0) sp0),
         .lambda [] (.block [.define 0 (.localDefine 0) (.literal (.intLit 2 sp0))
             (.define 0 (.intLit 2 sp0) sp0)] (.block [.define 0 (.intLit 2 sp0) sp0] sp0))
           (.lambda [] (.block [.define 0 (.intLit 2 sp0) sp0] sp0) sp0)
           ⟨[(2, .localDefine 0)], 0, 0, 1⟩]
        (.block [.define 0 (.intLit 1 sp0) sp0,
          .lambda [] (.block [.define 0 (.intLit 2 sp0) sp0] sp0) sp0] sp0),
        ⟨[], .buckStopsHere⟩, 3)) :=
  ⟨already_binds_spec, rfl, rfl⟩

/-- C5: the Global sentinel binder resolves every symbol to
`Global(that symbol)`, reports `already_binds` false for every symbol,
returns `Global(name)` from every declaration, and a symbol reference
bound directly at the outermost scope therefore never fails. -/
theorem C5_global_scope_never_fails :
    (∀ sym : Symbol, lookup [] .buckStopsHere sym = some (.global sym)) ∧
    (∀ sym : Symbol, already_binds [] .buckStopsHere sym = false) ∧
    (∀ (sym : Symbol) (c : Nat),
      add_declaration [] .buckStopsHere sym c = some (.global sym, [], .buckStopsHere, c)) ∧
    (∀ (sym : Symbol) (sp : Span) (c : Nat),
      Bound.bind (.symbol sym sp) ⟨[], .buckStopsHere⟩ c =
        some (.ok (.symbol sym (.symbol sym sp) (.global sym), ⟨[], .buckStopsHere⟩, c))) :=
  ⟨fun _ => rfl, fun _ => rfl, fun _ _ => rfl, fun _ _ _ => rfl⟩

/-- C6 counterexample: for the duplicate parameter list `(a a)` the
produced summary maps `a` to `Arg 1` only, so the set of argument indices
among its values is not `0..argument_count`: index 0 is missing while
`argument_count = 2`. -/
theorem C6_counterexample :
    Bound.bind_top (.lambda [0, 0] (.block [.intLit 1 sp0] sp0) sp0) 1 =
      some (.ok (.lambda [0, 0]
        (.block [.literal (.intLit 1 sp0)] (.block [.intLit 1 sp0] sp0))
        (.lambda [0, 0] (.block [.intLit 1 sp0] sp0) sp0)
        ⟨[(0, .arg 1)], 2, 0, 0⟩, ⟨[], .buckStopsHere⟩, 1)) ∧
    ¬ (∀ i, i ∈ argIndices ⟨[(0, .arg 1)], 2, 0, 0⟩ ↔
        i < (LambdaBindings.mk [(0, .arg 1)] 2 0 0).numArgs) := by
  refine ⟨rfl, fun h => ?_⟩
  have h0 := (h 0).mpr (by decide)
  exact absurd h0 (by decide)

/-- C6 (amended): for every summary the pass produces from a parameter
list without repeated names, the identifier-to-source map has no
duplicate keys, its argument indices are exactly `0..argument_count`, and
its local-slot indices are exactly `0..local_declaration_count`. -/
theorem C6_summary_invariant_distinct_params {args : List Symbol}
    {lb : LambdaBindings} (h : SummaryFrom args lb) (hnd : args.Nodup) :
    (lb.bindings.map Prod.fst).Nodup ∧
    (∀ i, i ∈ argIndices lb ↔ i < lb.numArgs) ∧
    (∀ i, i ∈ localIndices lb ↔ i < lb.numDeclarations) := by
  obtain ⟨h1, _, h3, h4⟩ := summary_invariant h hnd
  exact ⟨h1, h3, h4⟩

/-- Concrete summary for the C6 witness: parameters `[0, 1]` followed by
one local declaration of symbol `2`. -/
def lbW : LambdaBindings :=
  ⟨[(0, .arg 0), (1, .arg 1), (2, .localDefine 0)], 2, 0, 1⟩

/-- C6 witness: the invariant holds of the summary built from the
distinct parameter list `[0, 1]` and one declaration. -/
theorem C6_witness :
    (lbW.bindings.map Prod.fst).Nodup ∧
    (1 ∈ argIndices lbW ↔ 1 < lbW.numArgs) ∧
    (0 ∈ localIndices lbW ↔ 0 < lbW.numDeclarations) := by
  have hsf : SummaryFrom [0, 1] lbW :=
    @SummaryFrom.declared [0, 1] (LambdaBinder_new [0, 1]) lbW 2 (.localDefine 0)
      SummaryFrom.seeded rfl
  obtain ⟨h1, h2, h3⟩ := C6_summary_invariant_distinct_params hsf (by decide)
  exact ⟨h1, h2 1, h3 0⟩

/-- C7: the stack offset of `Arg(a)` is `a`, the stack offset of
`LocalSlot(a)` is `argument_count + captured_outer_count + a`, and
computing an offset for an `Upvar` or `Global` source is the
`unimplemented!` panic (`none`), not a user-facing error value. -/
theorem C7_stack_offset_formulas :
    (∀ (lb : LambdaBindings) (a : Nat),
      lb.compute_stack_offset (.arg a) = some a) ∧
    (∀ (lb : LambdaBindings) (a : Nat),
      lb.compute_stack_offset (.localDefine a) = some (lb.numArgs + lb.numUpvars + a)) ∧
    (∀ (lb : LambdaBindings) (a : Nat), lb.compute_stack_offset (.upvar a) = none) ∧
    (∀ (lb : LambdaBindings) (s : Symbol), lb.compute_stack_offset (.global s) = none) :=
  ⟨fun _ _ => rfl, fun _ _ => rfl, fun _ _ => rfl, fun _ _ => rfl⟩

/-- C8: for every composite node kind, children are resolved left to
right and the first failing child's error is returned as the error of the
whole node, with no resolved tree and no further resolution. -/
theorem C8_fail_fast_first_child_error :
    (∀ (xs ys : List Ast) (bad : Ast) (bi bi1 : Binder) (c c1 : Nat)
      (bs : List Bound) (e : BindingError) (sp : Span),
      Bound.bindElems xs bi c = some (.ok (bs, bi1, c1)) →
      Bound.bind bad bi1 c1 = some (.error e) →
      Bound.bind (.listLit (xs ++ bad :: ys) sp) bi c = some (.error e) ∧
      Bound.bind (.add (xs ++ bad :: ys) sp) bi c = some (.error e) ∧
      Bound.bind (.list (xs ++ bad :: ys) sp) bi c = some (.error e)) ∧
    (∀ (xs ys : List Ast) (bad : Ast) (bi bi1 : Binder) (c c1 : Nat)
      (bs : List Bound) (e : BindingError) (sp : Span),
      Bound.bindElems xs ⟨[] :: bi.blocks, bi.owner⟩ c = some (.ok (bs, bi1, c1)) →
      Bound.bind bad bi1 c1 = some (.error e) →
      Bound.bind (.block (xs ++ bad :: ys) sp) bi c = some (.error e)) ∧
    (∀ (ps rest : List (Ast × Ast)) (bad v : Ast) (bi bi1 : Binder) (c c1 : Nat)
      (bs : List (Bound × Bound)) (e : BindingError) (sp : Span),
      Bound.bindPairs ps bi c = some (.ok (bs, bi1, c1)) →
      Bound.bind bad bi1 c1 = some (.error e) →
      Bound.bind (.mapLit (ps ++ (bad, v) :: rest) sp) bi c = some (.error e)) ∧
    (∀ (ps rest : List (Ast × Ast)) (k bad : Ast) (bk : Bound) (bi bi1 bi2 : Binder)
      (c c1 c2 : Nat) (bs : List (Bound × Bound)) (e : BindingError) (sp : Span),
      Bound.bindPairs ps bi c = some (.ok (bs, bi1, c1)) →
      Bound.bind k bi1 c1 = some (.ok (bk, bi2, c2)) →
      Bound.bind bad bi2 c2 = some (.error e) →
      Bound.bind (.mapLit (ps ++ (k, bad) :: rest) sp) bi c = some (.error e)) ∧
    (∀ (x y z : Ast) (bi : Binder) (c : Nat) (e : BindingError) (sp : Span),
      Bound.bind x bi c = some (.error e) →
      Bound.bind (.cond x y z sp) bi c = some (.error e)) ∧
    (∀ (x y z : Ast) (bx : Bound) (bi bi1 : Binder) (c c1 : Nat)
      (e : BindingError) (sp : Span),
      Bound.bind x bi c = some (.ok (bx, bi1, c1)) →
      Bound.bind y bi1 c1 = some (.error e) →
      Bound.bind (.cond x y z sp) bi c = some (.error e)) ∧
    (∀ (x y z : Ast) (bx byy : Bound) (bi bi1 bi2 : Binder) (c c1 c2 : Nat)
      (e : BindingError) (sp : Span),
      Bound.bind x bi c = some (.ok (bx, bi1, c1)) →
      Bound.bind y bi1 c1 = some (.ok (byy, bi2, c2)) →
      Bound.bind z bi2 c2 = some (.error e) →
      Bound.bind (.cond x y z sp) bi c = some (.error e)) := by
  refine ⟨?_, ?_, ?_, ?_, ?_, ?_, ?_⟩
  · intro xs ys bad bi bi1 c c1 bs e sp h1 h2
    have h := bindElems_append_error ys h1 h2
    exact ⟨by simp only [Bound.bind, h], by simp only [Bound.bind, h],
           by simp only [Bound.bind, h]⟩
  · intro xs ys bad bi bi1 c c1 bs e sp h1 h2
    have h := bindElems_append_error ys h1 h2
    simp only [Bound.bind, h]
  · intro ps rest bad v bi bi1 c c1 bs e sp h1 h2
    have h := @bindPairs_append_error_key ps bi bi1 c c1 bs bad v e rest h1 h2
    simp only [Bound.bind, h]
  · intro ps rest k bad bk bi bi1 bi2 c c1 c2 bs e sp h1 hk h2
    have h := bindPairs_append_error_value rest h1 hk h2
    simp only [Bound.bind, h]
  · intro x y z bi c e sp h
    simp only [Bound.bind, h]
  · intro x y z bx bi bi1 c c1 e sp h1 h2
    simp only [Bound.bind, h1, h2]
  · intro x y z bx byy bi bi1 bi2 c c1 c2 e sp h1 h2 h3
    simp only [Bound.bind, h1, h2, h3]

/-- C8 witness: in a list literal whose middle element fails to resolve,
the whole literal fails with exactly that element's error. -/
theorem C8_witness :
    Bound.bind (.listLit [.intLit 1 sp0, .lambda [] (.block [.symbol 0 sp0] sp0) sp0,
        .intLit 2 sp0] sp0) ⟨[], .buckStopsHere⟩ 1 =
      some (.error (.couldNotBind 0 sp0)) :=
  (C8_fail_fast_first_child_error.1 [.intLit 1 sp0] [.intLit 2 sp0]
    (.lambda [] (.block [.symbol 0 sp0] sp0) sp0) ⟨[], .buckStopsHere⟩
    ⟨[], .buckStopsHere⟩ 1 1 [.literal (.intLit 1 sp0)] (.couldNotBind 0 sp0) sp0
    rfl rfl).1

/-- C9 (implicit): a local declaration inside a block whose chain reaches
the Global binder without a Function frame records `Global(g)` for a
freshly minted `g` distinct from the surface name; a later reference to
the name inside that block resolves to the same `Global(g)`, while a
reference outside the block resolves to `Global(name)`. -/
theorem C9_toplevel_block_defines_masked_global :
    (∀ (m : List (Symbol × Symbol)) (sym : Symbol) (k : Int) (c : Nat) (sp sp2 : Span),
      sym < c →
      alistContains m sym = false →
      Bound.bind (.define sym (.intLit k sp) sp2) ⟨[m], .buckStopsHere⟩ c =
        some (.ok (.define sym (.global c) (.literal (.intLit k sp))
          (.define sym (.intLit k sp) sp2),
          ⟨[alistInsert m sym c], .buckStopsHere⟩, c + 1)) ∧
      (SymbolBindSource.global c ≠ .global sym) ∧
      lookup [alistInsert m sym c] .buckStopsHere sym = some (.global c)) ∧
    Bound.bind_top (.listLit [.block [.define 0 (.intLit 5 sp0) sp0, .symbol 0 sp0] sp0,
        .symbol 0 sp0] sp0) 1 =
      some (.ok (.listLit
        [.block [.define 0 (.global 1) (.literal (.intLit 5 sp0)) (.define 0 (.intLit 5 sp0) sp0),
           .symbol 0 (.symbol 0 sp0) (.global 1)]
          (.block [.define 0 (.intLit 5 sp0) sp0, .symbol 0 sp0] sp0),
         .symbol 0 (.symbol 0 sp0) (.global 0)]
        (.listLit [.block [.define 0 (.intLit 5 sp0) sp0, .symbol 0 sp0] sp0, .symbol 0 sp0] sp0),
        ⟨[], .buckStopsHere⟩, 2)) := by
  refine ⟨?_, rfl⟩
  intro m sym k c sp sp2 hlt hct
  refine ⟨?_, ?_, ?_⟩
  · simp [Bound.bind, already_binds, add_declaration, gensym, hct]
  · intro heq
    simp only [SymbolBindSource.global.injEq] at heq
    exact absurd heq.symm (Nat.ne_of_lt hlt)
  · simp [lookup, alistLookup_insert_self]

/-- C9 witness: defining symbol 0 in a top-level block with counter 1
records `Global 1`, and the block afterwards resolves symbol 0 to
`Global 1`. -/
theorem C9_witness :
    Bound.bind (.define 0 (.intLit 5 sp0) sp0) ⟨[[]], .buckStopsHere⟩ 1 =
      some (.ok (.define 0 (.global 1) (.literal (.intLit 5 sp0))
        (.define 0 (.intLit 5 sp0) sp0), ⟨[[(0, 1)]], .buckStopsHere⟩, 2)) ∧
    lookup [[(0, 1)]] .buckStopsHere 0 = some (.global 1) :=
  ⟨(C9_toplevel_block_defines_masked_global.1 [] 0 5 1 sp0 sp0 (by decide) rfl).1,
   (C9_toplevel_block_defines_masked_global.1 [] 0 5 1 sp0 sp0 (by decide) rfl).2.2⟩

/-- C10: on any syntax tree whose symbols were all produced by the
interner (they lie below the gensym counter), the top-level binding entry
point never panics: the `assert!` inside the Function frame's declaration
operation never fails, and the pass returns either a resolved tree or a
binding error. -/
theorem C10_declare_assert_never_fails (ast : Ast) (c : Nat)
    (h : Ast.wfBelow ast c = true) : (Bound.bind_top ast c).isSome = true := by
  have hp := bind_total ast ⟨[], .buckStopsHere⟩ c h
    ⟨fun m hm => by simp at hm, trivial⟩
  show (Bound.bind ast ⟨[], .buckStopsHere⟩ c).isSome = true
  cases hr : Bound.bind ast ⟨[], .buckStopsHere⟩ c with
  | none => rw [hr] at hp; exact hp.elim
  | some r => rfl

/-- C10 witness: the sibling-block program with all symbols below the
counter binds without panicking. -/
theorem C10_witness :
    (Bound.bind_top (.lambda [] (.block [.block [.define 0 (.intLit 1 sp0) sp0] sp0,
      .block [.define 0 (.intLit 2 sp0) sp0] sp0] sp0) sp0) 1).isSome = true :=
  C10_declare_assert_never_fails _ 1 rfl

end AresBinding
